import Mathlib

/-!
Verification of the long-meeting chunked summarization pipeline
(`process_long_meeting.py`) of the zoom-mom-bot repository.

Python strings are modelled as `List Char`.  The generative-language
capability (OpenAI chat completion + JSON parse) is modelled as an oracle:
each call site consults the oracle with its call-site data and an attempt
number; `none` models the call raising an exception (network error,
malformed JSON, ...), `some` models a successfully parsed response.
-/

namespace ZoomMomBot

/-- Python `ValueError` raised by `range(0, n, 0)` (step must not be zero). -/
inductive PyError where
  | valueError
deriving DecidableEq, Repr

/-- Python `str.split()` with no separator — split on runs of whitespace,
dropping leading/trailing whitespace — written with an explicit fuel so
that the recursion is structural and the definition reduces in the
kernel.  `pywords` below always supplies fuel `s.length`, which the fuel
irrelevance lemma shows is enough. -/
def pywordsF : Nat → List Char → List (List Char)
  | _, [] => []
  | 0, _ :: _ => []
  | fuel + 1, c :: cs =>
    if c.isWhitespace then pywordsF fuel cs
    else (c :: cs.takeWhile (fun d => !d.isWhitespace)) ::
      pywordsF fuel (cs.dropWhile (fun d => !d.isWhitespace))

/-- Python `transcript_text.split()` as used in `chunk_transcript`
(line 27) and in the word counts of lines 53, 120 and 238. -/
def pywords (s : List Char) : List (List Char) := pywordsF s.length s

/-- Python `' '.join(ws)`: words joined by single spaces. -/
def joinSp : List (List Char) → List Char
  | [] => []
  | [w] => w
  | w :: w' :: ws => w ++ ' ' :: joinSp (w' :: ws)

/-- The slicing loop of `chunk_transcript` (lines 30-32) for a positive
step `m`: `for i in range(0, len(words), m): words[i:i+m]`, i.e. peel
`take m` and recurse on `drop m`, written fuel-structurally (`chunksOf`
below supplies fuel `ws.length`, enough whenever `1 ≤ m`).  The fuel-0
case with a nonempty list is never reached from `chunk_transcript`, whose
`range`-semantics guards divert steps `≤ 0` first. -/
def chunksOfF {α : Type} : Nat → Nat → List α → List (List α)
  | _, _, [] => []
  | 0, _, _ :: _ => []
  | fuel + 1, m, w :: ws => (w :: ws.take (m - 1)) :: chunksOfF fuel m (ws.drop (m - 1))

/-- The slicing loop of `chunk_transcript` for a positive step `m`. -/
def chunksOf {α : Type} (m : Nat) (ws : List α) : List (List α) :=
  chunksOfF ws.length m ws

/-- `chunk_transcript(transcript_text, max_words)` for a positive
`max_words` (the branch actually exercised by the pipeline, which calls it
with `max_words=3000` at line 139): split into words, slice into groups of
at most `max_words` words, and `' '.join` each group. -/
def chunk_transcript_pos (text : List Char) (m : Nat) : List (List Char) :=
  (chunksOf m (pywords text)).map joinSp

/-- `chunk_transcript(transcript_text, max_words)` (lines 16-34) with full
Python `range(0, len(words), max_words)` semantics for every integer step:
step 0 raises `ValueError`; a negative step over the nonnegative interval
`[0, len(words))` yields an empty range, hence an empty chunk list. -/
def chunk_transcript (text : List Char) (max_words : Int := 3000) :
    Except PyError (List (List Char)) :=
  if max_words = 0 then .error .valueError
  else if max_words < 0 then .ok []
  else .ok (chunk_transcript_pos text max_words.toNat)

/-- The parsed JSON of one segment-extraction response (the
`chunk_result` of lines 176-186): four lists, an absent or empty field
contributing nothing.  Entries are opaque payloads, modelled as strings. -/
structure ExtractionResult where
  key_points : List String
  decisions : List String
  action_items : List String
  questions : List String
deriving DecidableEq, Repr

/-- The four accumulator lists of `generate_mom_chunked` (lines 142-145):
`chunk_summaries`, `all_decisions`, `all_action_items`, `all_questions`. -/
structure Candidates where
  chunk_summaries : List String
  all_decisions : List String
  all_action_items : List String
  all_questions : List String
deriving DecidableEq, Repr

/-- The `mom['metadata']` dict attached at lines 117-122 / 235-241.
`generated_at` (wall-clock time) is omitted from the model. -/
structure Metadata where
  duration : Int
  word_count : Nat
  chunks_processed : Option Nat
  processing_method : String
deriving DecidableEq, Repr

/-- A generated minutes document: the opaque body parsed from the
capability's response plus the metadata the code attaches to it. -/
structure MomDoc where
  content : String
  metadata : Metadata
deriving DecidableEq, Repr

/-- The external capability (chat-completion + `json.loads`), one entry
per call site.  Each is indexed by the data the site sends and by an
attempt number — the code only ever consults attempt `0`, since none of
these call sites retries.  `none` models the call raising. -/
structure Oracles where
  ext : Nat → Nat → Option ExtractionResult
  synth : Candidates → Nat → Option String
  normal : Nat → Option String

/-- The accumulation loop of lines 148-192: in segment order, a failed
segment (the `except` branch, line 190-192) contributes nothing and the
loop continues; a successful one extends the four lists with its fields
(the falsy-guarded `extend` calls of lines 179-186 — skipping an absent
or empty field equals extending with the empty list). -/
def aggregate : List (Option ExtractionResult) → Candidates
  | [] => ⟨[], [], [], []⟩
  | none :: rest => aggregate rest
  | some r :: rest =>
    let c := aggregate rest
    ⟨r.key_points ++ c.chunk_summaries, r.decisions ++ c.all_decisions,
     r.action_items ++ c.all_action_items, r.questions ++ c.all_questions⟩

/-- The `combined_info` block of lines 197-202: the first 20 accumulated
key points (`chunk_summaries[:20]`) and the full decision / action-item /
question lists, as handed to the final synthesis prompt. -/
def combined_info (c : Candidates) : Candidates :=
  ⟨c.chunk_summaries.take 20, c.all_decisions, c.all_action_items, c.all_questions⟩

/-- The per-segment extraction outcomes of the loop at lines 148-192:
one capability call (attempt `0`) per segment, in segment order. -/
def extraction_results (o : Oracles) (n : Nat) : List (Option ExtractionResult) :=
  (List.range n).map (fun i => o.ext i 0)

/-- What `generate_mom_chunked` hands to the final synthesis call:
`combined_info` over the lists accumulated from all segment calls. -/
def chunked_candidates (o : Oracles) (text : List Char) : Candidates :=
  combined_info (aggregate (extraction_results o (chunk_transcript_pos text 3000).length))

/-- `generate_mom_chunked(transcript_text, transcript_data)`
(lines 131-248).  Chunks with `max_words=3000` (the positive branch of
`chunk_transcript`), runs the extraction loop, then makes the final
synthesis call; on its success attaches metadata (lines 235-241), on its
failure (`except`, lines 246-248) returns `none`.  The second component
counts capability calls: one per segment plus the synthesis call. -/
def generate_mom_chunked (o : Oracles) (text : List Char) (dur : Int) :
    Option MomDoc × Nat :=
  match o.synth (chunked_candidates o text) 0 with
  | none => (none, (chunk_transcript_pos text 3000).length + 1)
  | some content =>
    (some ⟨content, ⟨dur, (pywords text).length,
       some (chunk_transcript_pos text 3000).length, "chunked"⟩⟩,
     (chunk_transcript_pos text 3000).length + 1)

/-- `generate_mom_normal(transcript_text, transcript_data)`
(lines 68-129): one capability call; on success attaches metadata with
`processing_method = 'normal'` and no `chunks_processed` key
(lines 117-122); on failure returns `none`.  Second component counts
capability calls (always exactly one). -/
def generate_mom_normal (o : Oracles) (text : List Char) (dur : Int) :
    Option MomDoc × Nat :=
  match o.normal 0 with
  | none => (none, 1)
  | some content =>
    (some ⟨content, ⟨dur, (pywords text).length, none, "normal"⟩⟩, 1)

/-- `generate_mom_for_long_meeting` (lines 36-66) after the transcript
JSON is read: `if not transcript_text` rejects exactly the empty string
(line 49-51) with no capability call; otherwise routes on
`word_count > 4000` (line 60) to the chunked or the normal path. -/
def generate_mom_for_long_meeting (o : Oracles) (text : List Char) (dur : Int) :
    Option MomDoc × Nat :=
  if text = [] then (none, 0)
  else if 4000 < (pywords text).length then generate_mom_chunked o text dur
  else generate_mom_normal o text dur

/-! Concrete capability environments and inputs used by witnesses and
counterexamples. -/

/-- An environment in which every capability call succeeds. -/
def oracleSucc : Oracles where
  ext := fun _ _ => some ⟨["k"], ["d"], ["a"], ["q"]⟩
  synth := fun _ _ => some "mom"
  normal := fun _ => some "mom"

/-- An environment in which every segment-extraction call raises and the
synthesis and direct calls succeed. -/
def oracleExtFail : Oracles where
  ext := fun _ _ => none
  synth := fun _ _ => some "mom"
  normal := fun _ => some "mom"

/-- An environment in which the final synthesis call raises. -/
def oracleSynthFail : Oracles where
  ext := fun _ _ => some ⟨["k"], ["d"], ["a"], ["q"]⟩
  synth := fun _ _ => none
  normal := fun _ => some "mom"

/-- An environment whose segment-extraction calls raise transiently on
attempts 1 and 2 (indices 0 and 1) and succeed from attempt 3 (index 2)
on; synthesis and direct calls succeed. -/
def oracleThirdTry : Oracles where
  ext := fun _ a => if 2 ≤ a then some ⟨["kp"], ["dec"], ["act"], ["qst"]⟩ else none
  synth := fun _ _ => some "final"
  normal := fun _ => some "final"

/-- `oracleSucc` with every attempt after the first replaced by a raise:
it agrees with `oracleSucc` on attempt index 0 everywhere. -/
def oracleSuccFirstOnly : Oracles where
  ext := fun i a => if a = 0 then oracleSucc.ext i 0 else none
  synth := fun c a => if a = 0 then oracleSucc.synth c 0 else none
  normal := fun a => if a = 0 then oracleSucc.normal 0 else none

/-- A one-word transcript (one segment on the chunked path). -/
def tinyText : List Char := "hello".toList

/-! Lemmas about word splitting. -/

theorem dropWhile_length_le (p : Char → Bool) :
    ∀ l : List Char, (l.dropWhile p).length ≤ l.length
  | [] => Nat.le_refl _
  | c :: cs => by
    by_cases h : p c
    · rw [List.dropWhile_cons_of_pos h]
      exact Nat.le_trans (dropWhile_length_le p cs) (Nat.le_succ _)
    · rw [List.dropWhile_cons_of_neg h]

theorem pywordsF_fuel_irrel (fuel : Nat) :
    ∀ (fuel' : Nat) (s : List Char), s.length ≤ fuel → s.length ≤ fuel' →
      pywordsF fuel s = pywordsF fuel' s := by
  induction fuel with
  | zero =>
    intro fuel' s h _
    cases s with
    | nil => cases fuel' <;> rfl
    | cons c cs => simp at h
  | succ fuel ih =>
    intro fuel' s h h'
    cases s with
    | nil => cases fuel' <;> rfl
    | cons c cs =>
      cases fuel' with
      | zero => simp at h'
      | succ fuel' =>
        simp only [List.length_cons, Nat.add_le_add_iff_right] at h h'
        simp only [pywordsF]
        by_cases hc : c.isWhitespace = true
        · rw [if_pos hc, if_pos hc, ih fuel' cs h h']
        · rw [if_neg hc, if_neg hc,
            ih fuel' (cs.dropWhile (fun d => !d.isWhitespace))
              (Nat.le_trans (dropWhile_length_le _ cs) h)
              (Nat.le_trans (dropWhile_length_le _ cs) h')]

theorem pywords_nil : pywords [] = [] := rfl

theorem pywords_cons (c : Char) (cs : List Char) :
    pywords (c :: cs) =
      if c.isWhitespace then pywords cs
      else (c :: cs.takeWhile (fun d => !d.isWhitespace)) ::
        pywords (cs.dropWhile (fun d => !d.isWhitespace)) := by
  show (if c.isWhitespace then pywordsF cs.length cs
    else (c :: cs.takeWhile (fun d => !d.isWhitespace)) ::
      pywordsF cs.length (cs.dropWhile (fun d => !d.isWhitespace))) = _
  by_cases hc : c.isWhitespace = true
  · rw [if_pos hc, if_pos hc]; rfl
  · rw [if_neg hc, if_neg hc,
      pywordsF_fuel_irrel cs.length (cs.dropWhile (fun d => !d.isWhitespace)).length
        (cs.dropWhile (fun d => !d.isWhitespace))
        (dropWhile_length_le _ cs) (Nat.le_refl _)]
    rfl

theorem takeWhile_append_all (p : Char → Bool) (l2 : List Char) :
    ∀ l1 : List Char, (∀ a ∈ l1, p a = true) →
      (l1 ++ l2).takeWhile p = l1 ++ l2.takeWhile p
  | [], _ => rfl
  | a :: l, h => by
    rw [List.cons_append, List.takeWhile_cons, if_pos (h a (List.mem_cons_self a l)),
      takeWhile_append_all p l2 l (fun b hb => h b (List.mem_cons_of_mem a hb))]
    rfl

theorem dropWhile_append_all (p : Char → Bool) (l2 : List Char) :
    ∀ l1 : List Char, (∀ a ∈ l1, p a = true) →
      (l1 ++ l2).dropWhile p = l2.dropWhile p
  | [], _ => rfl
  | a :: l, h => by
    rw [List.cons_append, List.dropWhile_cons, if_pos (h a (List.mem_cons_self a l)),
      dropWhile_append_all p l2 l (fun b hb => h b (List.mem_cons_of_mem a hb))]

/-- Every word produced by Python `split()` is nonempty and contains no
whitespace character. -/
theorem pywords_sound (s : List Char) :
    ∀ w ∈ pywords s, w ≠ [] ∧ ∀ c ∈ w, c.isWhitespace = false := by
  suffices h : ∀ (fuel : Nat) (s : List Char), s.length ≤ fuel →
      ∀ w ∈ pywords s, w ≠ [] ∧ ∀ c ∈ w, c.isWhitespace = false from
    h s.length s (Nat.le_refl _)
  intro fuel
  induction fuel with
  | zero =>
    intro s h w hw
    cases s with
    | nil => simp [pywords_nil] at hw
    | cons c cs => simp at h
  | succ fuel ih =>
    intro s h w hw
    cases s with
    | nil => simp [pywords_nil] at hw
    | cons c cs =>
      simp only [List.length_cons, Nat.add_le_add_iff_right] at h
      rw [pywords_cons] at hw
      by_cases hc : c.isWhitespace = true
      · rw [if_pos hc] at hw
        exact ih cs h w hw
      · rw [if_neg hc] at hw
        rcases List.mem_cons.mp hw with hw | hw
        · subst hw
          refine ⟨by simp, ?_⟩
          intro d hd
          rcases List.mem_cons.mp hd with hd | hd
          · subst hd; simpa using hc
          · have := List.mem_takeWhile_imp hd
            simpa using this
        · exact ih (cs.dropWhile (fun d => !d.isWhitespace))
            (Nat.le_trans (dropWhile_length_le _ cs) h) w hw

/-- Splitting `w ++ rest` where `w` is a nonempty whitespace-free word:
the first word is `w` extended by the leading non-whitespace of `rest`. -/
theorem pywords_word_append (w rest : List Char) (hw : w ≠ [])
    (hnw : ∀ c ∈ w, c.isWhitespace = false) :
    pywords (w ++ rest) =
      (w ++ rest.takeWhile (fun d => !d.isWhitespace)) ::
        pywords (rest.dropWhile (fun d => !d.isWhitespace)) := by
  cases w with
  | nil => exact absurd rfl hw
  | cons c w' =>
    have hall : ∀ a ∈ w', (fun d => !d.isWhitespace) a = true := by
      intro a ha
      simp [hnw a (List.mem_cons_of_mem c ha)]
    rw [List.cons_append, pywords_cons,
      if_neg (by simp [hnw c (List.mem_cons_self c w')]),
      takeWhile_append_all _ rest w' hall, dropWhile_append_all _ rest w' hall,
      List.cons_append]

/-- Python round trip: splitting `' '.join(ws)` recovers `ws`, provided
each word is nonempty and whitespace-free. -/
theorem pywords_joinSp :
    ∀ ws : List (List Char),
      (∀ w ∈ ws, w ≠ [] ∧ ∀ c ∈ w, c.isWhitespace = false) →
      pywords (joinSp ws) = ws
  | [], _ => rfl
  | [w], h => by
    have hw := h w (List.mem_cons_self w [])
    have := pywords_word_append w [] hw.1 hw.2
    simpa [joinSp] using this
  | w :: w2 :: ws', h => by
    have hw := h w (List.mem_cons_self w _)
    have hsp : (' ' : Char).isWhitespace = true := by decide
    rw [show joinSp (w :: w2 :: ws') = w ++ ' ' :: joinSp (w2 :: ws') from rfl,
      pywords_word_append w _ hw.1 hw.2,
      List.takeWhile_cons, List.dropWhile_cons]
    rw [if_neg (by decide), if_neg (by decide), List.append_nil, pywords_cons, if_pos hsp,
      pywords_joinSp (w2 :: ws') (fun v hv => h v (List.mem_cons_of_mem w hv))]

/-! Lemmas about the slicing loop. -/

theorem chunksOfF_fuel_irrel {α : Type} (m : Nat) (fuel : Nat) :
    ∀ (fuel' : Nat) (ws : List α), ws.length ≤ fuel → ws.length ≤ fuel' →
      chunksOfF fuel m ws = chunksOfF fuel' m ws := by
  induction fuel with
  | zero =>
    intro fuel' ws h _
    cases ws with
    | nil => cases fuel' <;> rfl
    | cons w ws => simp at h
  | succ fuel ih =>
    intro fuel' ws h h'
    cases ws with
    | nil => cases fuel' <;> rfl
    | cons w ws =>
      cases fuel' with
      | zero => simp at h'
      | succ fuel' =>
        simp only [List.length_cons, Nat.add_le_add_iff_right] at h h'
        simp only [chunksOfF]
        rw [ih fuel' (ws.drop (m - 1))
          (Nat.le_trans (by simp) h) (Nat.le_trans (by simp) h')]

theorem chunksOf_nil {α : Type} (m : Nat) : chunksOf m ([] : List α) = [] := rfl

theorem chunksOf_cons {α : Type} (m : Nat) (w : α) (ws : List α) :
    chunksOf m (w :: ws) = (w :: ws.take (m - 1)) :: chunksOf m (ws.drop (m - 1)) := by
  show (w :: ws.take (m - 1)) :: chunksOfF ws.length m (ws.drop (m - 1)) = _
  rw [chunksOfF_fuel_irrel m ws.length (ws.drop (m - 1)).length (ws.drop (m - 1))
    (by simp) (Nat.le_refl _)]
  rfl

/-- The slices concatenate back to the original list: no loss, no
overlap, original order. -/
theorem chunksOf_flatten {α : Type} (m : Nat) (ws : List α) :
    (chunksOf m ws).flatten = ws := by
  suffices h : ∀ (fuel : Nat) (ws : List α), ws.length ≤ fuel →
      (chunksOf m ws).flatten = ws from h ws.length ws (Nat.le_refl _)
  intro fuel
  induction fuel with
  | zero =>
    intro ws h
    cases ws with
    | nil => rfl
    | cons w ws => simp at h
  | succ fuel ih =>
    intro ws h
    cases ws with
    | nil => rfl
    | cons w ws =>
      simp only [List.length_cons, Nat.add_le_add_iff_right] at h
      rw [chunksOf_cons, List.flatten_cons,
        ih (ws.drop (m - 1)) (Nat.le_trans (by simp) h), List.cons_append,
        List.take_append_drop]

/-- The number of slices is `ceil(len / m)` for a positive step `m`. -/
theorem chunksOf_length {α : Type} (m : Nat) (hm : 1 ≤ m) (ws : List α) :
    (chunksOf m ws).length = (ws.length + m - 1) / m := by
  suffices h : ∀ (fuel : Nat) (ws : List α), ws.length ≤ fuel →
      (chunksOf m ws).length = (ws.length + m - 1) / m from
    h ws.length ws (Nat.le_refl _)
  intro fuel
  induction fuel with
  | zero =>
    intro ws h
    cases ws with
    | nil =>
      rw [chunksOf_nil]
      simp only [List.length_nil]
      exact (Nat.div_eq_of_lt (by omega)).symm
    | cons w ws => simp at h
  | succ fuel ih =>
    intro ws h
    cases ws with
    | nil =>
      rw [chunksOf_nil]
      simp only [List.length_nil]
      exact (Nat.div_eq_of_lt (by omega)).symm
    | cons w ws =>
      simp only [List.length_cons, Nat.add_le_add_iff_right] at h
      rw [chunksOf_cons, List.length_cons,
        ih (ws.drop (m - 1)) (Nat.le_trans (by simp) h), List.length_drop]
      simp only [List.length_cons]
      have key : (ws.length - (m - 1) + m - 1) / m = ws.length / m := by
        rcases Nat.le_total (m - 1) ws.length with hle | hle
        · congr 1
          omega
        · rw [show ws.length - (m - 1) + m - 1 = m - 1 by omega,
            Nat.div_eq_of_lt (by omega), Nat.div_eq_of_lt (by omega)]
      rw [key, show ws.length + 1 + m - 1 = ws.length + m by omega]
      exact (Nat.add_div_right ws.length (by omega)).symm

/-- Every slice is nonempty and holds at most `m` elements. -/
theorem chunksOf_mem_length {α : Type} (m : Nat) (hm : 1 ≤ m) (ws : List α) (c : List α)
    (hc : c ∈ chunksOf m ws) : c ≠ [] ∧ c.length ≤ m := by
  suffices h : ∀ (fuel : Nat) (ws : List α), ws.length ≤ fuel →
      ∀ c ∈ chunksOf m ws, c ≠ [] ∧ c.length ≤ m from
    h ws.length ws (Nat.le_refl _) c hc
  intro fuel
  induction fuel with
  | zero =>
    intro ws h c hc
    cases ws with
    | nil => simp [chunksOf_nil] at hc
    | cons w ws => simp at h
  | succ fuel ih =>
    intro ws h c hc
    cases ws with
    | nil => simp [chunksOf_nil] at hc
    | cons w ws =>
      simp only [List.length_cons, Nat.add_le_add_iff_right] at h
      rw [chunksOf_cons] at hc
      rcases List.mem_cons.mp hc with hc | hc
      · subst hc
        refine ⟨by simp, ?_⟩
        have := List.length_take (m - 1) ws
        simp only [List.length_cons]
        omega
      · exact ih (ws.drop (m - 1)) (Nat.le_trans (by simp) h) c hc

/-- Splitting each produced chunk string recovers exactly the word slice
it was joined from. -/
theorem chunk_transcript_pos_words (text : List Char) (m : Nat) :
    (chunk_transcript_pos text m).map pywords = chunksOf m (pywords text) := by
  unfold chunk_transcript_pos
  rw [List.map_map]
  have h : ∀ c ∈ chunksOf m (pywords text), (pywords ∘ joinSp) c = id c := by
    intro c hc
    show pywords (joinSp c) = c
    refine pywords_joinSp c ?_
    intro w hw
    refine pywords_sound text w ?_
    have : w ∈ (chunksOf m (pywords text)).flatten := List.mem_flatten.mpr ⟨c, hc, hw⟩
    rwa [chunksOf_flatten] at this
  rw [List.map_congr_left h, List.map_id]

/-- C1.  For every text and every `maxWords ≥ 1`, `chunk_transcript`
returns (no error) a chunk list whose per-chunk word lists concatenate,
in order, to exactly the original whitespace-delimited word sequence;
the number of chunks is `ceil(wordCount / maxWords)`; and no chunk holds
more than `maxWords` words. -/
theorem chunker_correct (text : List Char) (max_words : Int) (hm : 1 ≤ max_words) :
    ∃ cs, chunk_transcript text max_words = .ok cs ∧
      (cs.map pywords).flatten = pywords text ∧
      cs.length = ((pywords text).length + max_words.toNat - 1) / max_words.toNat ∧
      ∀ c ∈ cs, (pywords c).length ≤ max_words.toNat := by
  have hmN : 1 ≤ max_words.toNat := by omega
  refine ⟨chunk_transcript_pos text max_words.toNat, ?_, ?_, ?_, ?_⟩
  · unfold chunk_transcript
    rw [if_neg (by omega), if_neg (by omega)]
  · rw [chunk_transcript_pos_words, chunksOf_flatten]
  · have := congrArg List.length (chunk_transcript_pos_words text max_words.toNat)
    rw [List.length_map] at this
    rw [this, chunksOf_length _ hmN]
  · intro c hc
    have : pywords c ∈ (chunk_transcript_pos text max_words.toNat).map pywords :=
      List.mem_map_of_mem pywords hc
    rw [chunk_transcript_pos_words] at this
    exact (chunksOf_mem_length _ hmN _ _ this).2

theorem chunker_correct_witness :
    (1 : Int) ≤ 2 ∧
    ∃ cs, chunk_transcript ("a b c".toList) 2 = .ok cs ∧
      (cs.map pywords).flatten = pywords ("a b c".toList) ∧
      cs.length = ((pywords ("a b c".toList)).length + (2 : Int).toNat - 1) / (2 : Int).toNat ∧
      ∀ c ∈ cs, (pywords c).length ≤ (2 : Int).toNat :=
  ⟨by decide, chunker_correct ("a b c".toList) 2 (by decide)⟩

/-- C8 counterexample.  With a negative `maxWords` (here `-1`) the
Chunker does not fail at all: Python `range(0, len(words), -1)` is empty,
so `chunk_transcript` returns the empty chunk list. -/
theorem chunker_nonpositive_counterexample :
    chunk_transcript ("a b".toList) (-1) = .ok [] := rfl

/-- C8 amended.  Only `maxWords = 0` makes the Chunker fail (the Python
`ValueError` that `range` raises for a zero step, before any capability
call); for `maxWords < 0` it does not fail, returning the empty chunk
list (`range` over a negative step and a nonnegative interval is empty). -/
theorem chunker_nonpositive (text : List Char) (max_words : Int) (h : max_words ≤ 0) :
    (max_words = 0 → chunk_transcript text max_words = .error .valueError) ∧
    (max_words < 0 → chunk_transcript text max_words = .ok []) := by
  constructor
  · intro h0
    unfold chunk_transcript
    rw [if_pos h0]
  · intro hneg
    unfold chunk_transcript
    rw [if_neg (by omega), if_pos hneg]

theorem chunker_nonpositive_witness :
    ((0 : Int) ≤ 0 ∧ chunk_transcript ("a b".toList) 0 = .error .valueError) ∧
    ((-1 : Int) ≤ 0 ∧ chunk_transcript ("a b".toList) (-1) = .ok []) :=
  ⟨⟨by decide, (chunker_nonpositive ("a b".toList) 0 (by decide)).1 rfl⟩,
   ⟨by decide, (chunker_nonpositive ("a b".toList) (-1) (by decide)).2 (by decide)⟩⟩

/-! Lemmas about aggregation and the pipeline. -/

theorem aggregate_map_some (rs : List ExtractionResult) :
    aggregate (rs.map some) =
      ⟨(rs.map ExtractionResult.key_points).flatten,
       (rs.map ExtractionResult.decisions).flatten,
       (rs.map ExtractionResult.action_items).flatten,
       (rs.map ExtractionResult.questions).flatten⟩ := by
  induction rs with
  | nil => rfl
  | cons r rs ih =>
    simp only [List.map_cons, aggregate, ih, List.flatten_cons]

theorem aggregate_filterMap (rs : List (Option ExtractionResult)) :
    aggregate rs = aggregate ((rs.filterMap id).map some) := by
  induction rs with
  | nil => rfl
  | cons x rs ih =>
    cases x with
    | none => simpa [aggregate, List.filterMap_cons] using ih
    | some r => simp only [aggregate, List.filterMap_cons, List.map_cons, ih]

theorem aggregate_all_none (rs : List (Option ExtractionResult))
    (h : ∀ x ∈ rs, x = none) : aggregate rs = ⟨[], [], [], []⟩ := by
  induction rs with
  | nil => rfl
  | cons x rs ih =>
    have hx := h x (List.mem_cons_self x rs)
    subst hx
    exact ih (fun y hy => h y (List.mem_cons_of_mem none hy))

theorem filterMap_id_length (rs : List (Option ExtractionResult)) :
    (rs.filterMap id).length = (rs.filter Option.isSome).length := by
  induction rs with
  | nil => rfl
  | cons x rs ih => cases x <;> simp [List.filterMap_cons, List.filter_cons, ih]

theorem count_range_one_failure (q : Nat → Bool) :
    ∀ (n j : Nat), j < n → q j = false → (∀ i, i < n → i ≠ j → q i = true) →
      ((List.range n).filter q).length = n - 1 := by
  intro n
  induction n with
  | zero => intro j hj; omega
  | succ n ih =>
    intro j hj hqj hq
    rw [List.range_succ, List.filter_append]
    by_cases hjn : j = n
    · subst hjn
      rw [List.filter_eq_self.mpr
        (fun a ha => hq a (Nat.lt_succ_of_lt (List.mem_range.mp ha))
          (Nat.ne_of_lt (List.mem_range.mp ha)))]
      simp [List.filter_cons, hqj]
    · have hjn' : j < n := by omega
      have hqn : q n = true := hq n (Nat.lt_succ_self n) (fun h => hjn h.symm)
      rw [List.length_append, ih j hjn' hqj (fun i hi hij => hq i (Nat.lt_succ_of_lt hi) hij)]
      simp [List.filter_cons, hqn]
      omega

/-- A document coming out of the chunked path always carries the chunked
metadata, and its body is exactly what the synthesis call returned. -/
theorem chunked_doc (o : Oracles) (text : List Char) (dur : Int) (doc : MomDoc)
    (h : (generate_mom_chunked o text dur).1 = some doc) :
    doc.metadata = ⟨dur, (pywords text).length,
      some (chunk_transcript_pos text 3000).length, "chunked"⟩ ∧
    o.synth (chunked_candidates o text) 0 = some doc.content := by
  unfold generate_mom_chunked at h
  rcases hs : o.synth (chunked_candidates o text) 0 with _ | s <;> rw [hs] at h
  · exact absurd h (by simp)
  · have h2 : some (⟨s, ⟨dur, (pywords text).length,
        some (chunk_transcript_pos text 3000).length, "chunked"⟩⟩ : MomDoc) = some doc := h
    obtain rfl := Option.some_inj.mp h2
    exact ⟨rfl, rfl⟩

/-- A document coming out of the direct path always carries the normal
metadata, and its body is what the direct call returned. -/
theorem normal_doc (o : Oracles) (text : List Char) (dur : Int) (doc : MomDoc)
    (h : (generate_mom_normal o text dur).1 = some doc) :
    doc.metadata = ⟨dur, (pywords text).length, none, "normal"⟩ ∧
    o.normal 0 = some doc.content := by
  unfold generate_mom_normal at h
  rcases hs : o.normal 0 with _ | s <;> rw [hs] at h
  · exact absurd h (by simp)
  · have h2 : some (⟨s, ⟨dur, (pywords text).length, none, "normal"⟩⟩ : MomDoc) = some doc := h
    obtain rfl := Option.some_inj.mp h2
    exact ⟨rfl, rfl⟩

/-- Only whitespace means no words. -/
theorem pywords_all_whitespace :
    ∀ s : List Char, (∀ c ∈ s, c.isWhitespace = true) → pywords s = []
  | [], _ => rfl
  | c :: cs, h => by
    rw [pywords_cons, if_pos (h c (List.mem_cons_self c cs))]
    exact pywords_all_whitespace cs (fun d hd => h d (List.mem_cons_of_mem c hd))

/-! Claim theorems for the pipeline. -/

/-- C2.  For every nonempty transcript text: the pipeline dispatches to
the chunked path exactly when the word count strictly exceeds 4000 (a
word count equal to 4000 takes the direct path), and any document it
produces is stamped `processing_method = "chunked"` iff the word count
exceeded 4000 (otherwise `"normal"`). -/
theorem routing_threshold (o : Oracles) (text : List Char) (dur : Int)
    (h : text ≠ []) :
    (4000 < (pywords text).length →
      generate_mom_for_long_meeting o text dur = generate_mom_chunked o text dur) ∧
    ((pywords text).length ≤ 4000 →
      generate_mom_for_long_meeting o text dur = generate_mom_normal o text dur) ∧
    ∀ doc, (generate_mom_for_long_meeting o text dur).1 = some doc →
      (doc.metadata.processing_method = "chunked" ↔ 4000 < (pywords text).length) := by
  unfold generate_mom_for_long_meeting
  rw [if_neg h]
  refine ⟨fun hgt => by rw [if_pos hgt], fun hle => by rw [if_neg (by omega)], ?_⟩
  intro doc hdoc
  by_cases hgt : 4000 < (pywords text).length
  · rw [if_pos hgt] at hdoc
    have hm := (chunked_doc o text dur doc hdoc).1
    constructor
    · intro _; exact hgt
    · intro _; rw [hm]
  · rw [if_neg hgt] at hdoc
    have hm := (normal_doc o text dur doc hdoc).1
    constructor
    · intro hmeth
      rw [hm] at hmeth
      have hbad : ("normal" : String) = "chunked" := hmeth
      exact absurd hbad (by decide)
    · intro hgt'; exact absurd hgt' hgt

theorem routing_threshold_witness :
    tinyText ≠ [] ∧
    ((4000 < (pywords tinyText).length →
      generate_mom_for_long_meeting oracleSucc tinyText 7 =
        generate_mom_chunked oracleSucc tinyText 7) ∧
    ((pywords tinyText).length ≤ 4000 →
      generate_mom_for_long_meeting oracleSucc tinyText 7 =
        generate_mom_normal oracleSucc tinyText 7) ∧
    ∀ doc, (generate_mom_for_long_meeting oracleSucc tinyText 7).1 = some doc →
      (doc.metadata.processing_method = "chunked" ↔ 4000 < (pywords tinyText).length)) :=
  ⟨by decide, routing_threshold oracleSucc tinyText 7 (by decide)⟩

/-- C3.  Aggregation passes at most the first 20 key points, in segment
order, to the final synthesis prompt, while the aggregated decision,
action-item and question lists are the exact in-order concatenations of
the per-segment lists: each aggregated length is the sum of the
per-segment lengths — no cap, no deduplication, no drops. -/
theorem aggregator_cap_and_totals (rs : List ExtractionResult) :
    combined_info (aggregate (rs.map some)) =
      ⟨((rs.map ExtractionResult.key_points).flatten).take 20,
       (rs.map ExtractionResult.decisions).flatten,
       (rs.map ExtractionResult.action_items).flatten,
       (rs.map ExtractionResult.questions).flatten⟩ ∧
    (combined_info (aggregate (rs.map some))).chunk_summaries.length ≤ 20 ∧
    (aggregate (rs.map some)).all_decisions.length =
      (rs.map (fun r => r.decisions.length)).sum ∧
    (aggregate (rs.map some)).all_action_items.length =
      (rs.map (fun r => r.action_items.length)).sum ∧
    (aggregate (rs.map some)).all_questions.length =
      (rs.map (fun r => r.questions.length)).sum := by
  rw [aggregate_map_some]
  refine ⟨rfl, ?_, ?_, ?_, ?_⟩
  · show (List.take 20 _).length ≤ 20
    rw [List.length_take]
    omega
  · show (List.flatten _).length = _
    rw [List.length_flatten, List.map_map]
    rfl
  · show (List.flatten _).length = _
    rw [List.length_flatten, List.map_map]
    rfl
  · show (List.flatten _).length = _
    rw [List.length_flatten, List.map_map]
    rfl

/-- C4.  If exactly one of the N segment-extraction calls fails, the run
is not aborted: the candidates handed to the synthesis call are exactly
those aggregated from the successful segments (of which there are N−1),
and the run proceeds to synthesis, returning the synthesized document
whenever synthesis succeeds. -/
theorem single_segment_failure_tolerated (o : Oracles) (text : List Char) (dur : Int)
    (j : Nat) (hj : j < (chunk_transcript_pos text 3000).length)
    (hfail : o.ext j 0 = none)
    (hrest : ∀ i, i < (chunk_transcript_pos text 3000).length → i ≠ j →
      (o.ext i 0).isSome = true) :
    chunked_candidates o text =
      combined_info (aggregate
        (((extraction_results o (chunk_transcript_pos text 3000).length).filterMap id).map
          some)) ∧
    ((extraction_results o (chunk_transcript_pos text 3000).length).filterMap id).length =
      (chunk_transcript_pos text 3000).length - 1 ∧
    ∀ s, o.synth (chunked_candidates o text) 0 = some s →
      (generate_mom_chunked o text dur).1 =
        some ⟨s, ⟨dur, (pywords text).length,
          some (chunk_transcript_pos text 3000).length, "chunked"⟩⟩ := by
  refine ⟨?_, ?_, ?_⟩
  · unfold chunked_candidates
    rw [← aggregate_filterMap]
  · rw [filterMap_id_length]
    unfold extraction_results
    rw [List.filter_map]
    rw [List.length_map]
    exact count_range_one_failure _ _ j hj (by simp [hfail]) hrest
  · intro s hs
    unfold generate_mom_chunked
    rw [hs]

theorem single_segment_failure_tolerated_witness :
    (generate_mom_chunked oracleExtFail tinyText 0).1 =
      some ⟨"mom", ⟨0, 1, some 1, "chunked"⟩⟩ := by
  have h := single_segment_failure_tolerated oracleExtFail tinyText 0 0 (by decide) rfl
    (by
      intro i h1 h2
      have hl : (chunk_transcript_pos tinyText 3000).length = 1 := by decide
      rw [hl] at h1
      omega)
  exact (h.2.2 "mom" rfl).trans (by decide)

/-- C5.  If the final synthesis call fails, the chunked run produces no
document: `generate_mom_chunked` yields `None` (the code reports the
error and returns `None`, lines 246-248) with no fallback and no partial
document. -/
theorem synthesis_failure_no_document (o : Oracles) (text : List Char) (dur : Int)
    (h : o.synth (chunked_candidates o text) 0 = none) :
    (generate_mom_chunked o text dur).1 = none := by
  unfold generate_mom_chunked
  rw [h]

theorem synthesis_failure_no_document_witness :
    (generate_mom_chunked oracleSynthFail tinyText 0).1 = none :=
  synthesis_failure_no_document oracleSynthFail tinyText 0 rfl

/-- C6 counterexample.  In an environment whose segment-extraction call
raises transiently on attempts 1 and 2 (indices 0 and 1) and would
succeed on attempt 3 (index 2), the pipeline never reaches that success:
the one segment contributes nothing, the aggregated candidates are
empty, and the produced document is built from empty candidates — the
claimed retried-to-success ExtractionResult never surfaces, because no
summarization call site retries at all. -/
theorem summarization_no_retry_counterexample :
    oracleThirdTry.ext 0 0 = none ∧
    oracleThirdTry.ext 0 1 = none ∧
    oracleThirdTry.ext 0 2 = some ⟨["kp"], ["dec"], ["act"], ["qst"]⟩ ∧
    chunked_candidates oracleThirdTry tinyText = ⟨[], [], [], []⟩ ∧
    (generate_mom_chunked oracleThirdTry tinyText 0).1 =
      some ⟨"final", ⟨0, 1, some 1, "chunked"⟩⟩ := by decide

/-- C6 amended.  The summarization call sites (segment extraction and
final synthesis, and the direct path's single call) make exactly one
attempt each, with no retry and no backoff: the whole pipeline outcome
depends only on attempt index 0 of every call site, so a transient error
on a call's first attempt is final for that call.  (Retry with
exponential backoff, up to 3 attempts, exists only in the transcription
collaborator `transcribe_audio.py`, not at any summarization call site.) -/
theorem summarization_single_attempt (o o' : Oracles) (text : List Char) (dur : Int)
    (hext : ∀ i, o.ext i 0 = o'.ext i 0)
    (hsynth : ∀ c, o.synth c 0 = o'.synth c 0)
    (hnormal : o.normal 0 = o'.normal 0) :
    generate_mom_chunked o text dur = generate_mom_chunked o' text dur ∧
    generate_mom_for_long_meeting o text dur = generate_mom_for_long_meeting o' text dur := by
  have hres : ∀ n, extraction_results o n = extraction_results o' n := by
    intro n
    unfold extraction_results
    exact List.map_congr_left (fun i _ => hext i)
  have hcand : chunked_candidates o text = chunked_candidates o' text := by
    unfold chunked_candidates
    rw [hres]
  have hchunk : generate_mom_chunked o text dur = generate_mom_chunked o' text dur := by
    unfold generate_mom_chunked
    rw [hcand, hsynth]
  refine ⟨hchunk, ?_⟩
  unfold generate_mom_for_long_meeting
  by_cases hnil : text = []
  · rw [if_pos hnil, if_pos hnil]
  · rw [if_neg hnil, if_neg hnil]
    by_cases hgt : 4000 < (pywords text).length
    · rw [if_pos hgt, if_pos hgt, hchunk]
    · rw [if_neg hgt, if_neg hgt]
      unfold generate_mom_normal
      rw [hnormal]

theorem summarization_single_attempt_witness :
    generate_mom_chunked oracleSucc tinyText 0 =
      generate_mom_chunked oracleSuccFirstOnly tinyText 0 ∧
    generate_mom_for_long_meeting oracleSucc tinyText 0 =
      generate_mom_for_long_meeting oracleSuccFirstOnly tinyText 0 :=
  summarization_single_attempt oracleSucc oracleSuccFirstOnly tinyText 0
    (fun _ => rfl) (fun _ => rfl) rfl

/-- C7 counterexample.  A whitespace-only (nonempty) transcript is not
rejected: `if not transcript_text` only catches the empty string, so a
single-space transcript routes to the direct path, makes one capability
call, and (in an environment where the call succeeds) yields a document. -/
theorem whitespace_transcript_counterexample :
    generate_mom_for_long_meeting oracleSucc [' '] 0 =
      (some ⟨"mom", ⟨0, 0, none, "normal"⟩⟩, 1) := by decide

/-- C7 amended.  A transcript whose text is the empty string is rejected
immediately — no capability call is made (the call counter is 0) and no
document is produced; but a whitespace-only *nonempty* text is not
rejected: its word count is 0, so it takes the direct path and makes a
capability call. -/
theorem empty_transcript_rejected (o : Oracles) (dur : Int) :
    generate_mom_for_long_meeting o [] dur = (none, 0) ∧
    ∀ text, text ≠ [] → (∀ c ∈ text, c.isWhitespace = true) →
      generate_mom_for_long_meeting o text dur = generate_mom_normal o text dur := by
  constructor
  · rfl
  · intro text hne hws
    have hw : pywords text = [] := pywords_all_whitespace text hws
    unfold generate_mom_for_long_meeting
    rw [if_neg hne, if_neg (by simp [hw])]

theorem empty_transcript_rejected_witness :
    generate_mom_for_long_meeting oracleSucc [] 0 = (none, 0) ∧
    generate_mom_for_long_meeting oracleSucc [' '] 0 =
      generate_mom_normal oracleSucc [' '] 0 :=
  ⟨(empty_transcript_rejected oracleSucc 0).1,
   (empty_transcript_rejected oracleSucc 0).2 [' '] (by decide) (by decide)⟩

/-- C9.  Any document produced by the chunked path carries
`chunks_processed` equal to the number of segments the Chunker produced —
independent of how many extraction calls succeeded, it counts attempted
segments. -/
theorem chunks_processed_counts_segments (o : Oracles) (text : List Char) (dur : Int)
    (doc : MomDoc) (h : (generate_mom_chunked o text dur).1 = some doc) :
    doc.metadata.chunks_processed = some (chunk_transcript_pos text 3000).length := by
  rw [(chunked_doc o text dur doc h).1]

theorem chunks_processed_counts_segments_witness :
    (⟨"mom", ⟨0, 1, some 1, "chunked"⟩⟩ : MomDoc).metadata.chunks_processed =
      some (chunk_transcript_pos tinyText 3000).length :=
  chunks_processed_counts_segments oracleExtFail tinyText 0
    ⟨"mom", ⟨0, 1, some 1, "chunked"⟩⟩ (by decide)

/-- C10.  If every segment-extraction call fails, the chunked run still
does not abort at the extraction stage: it reaches final synthesis with
all four candidate lists empty, and if that synthesis call succeeds the
run returns a document. -/
theorem all_extractions_failed_still_synthesizes (o : Oracles) (text : List Char)
    (dur : Int)
    (hall : ∀ i, i < (chunk_transcript_pos text 3000).length → o.ext i 0 = none) :
    chunked_candidates o text = ⟨[], [], [], []⟩ ∧
    ∀ s, o.synth ⟨[], [], [], []⟩ 0 = some s →
      (generate_mom_chunked o text dur).1 =
        some ⟨s, ⟨dur, (pywords text).length,
          some (chunk_transcript_pos text 3000).length, "chunked"⟩⟩ := by
  have hcand : chunked_candidates o text = ⟨[], [], [], []⟩ := by
    unfold chunked_candidates
    rw [aggregate_all_none _ (fun x hx => ?_)]
    · rfl
    · unfold extraction_results at hx
      obtain ⟨i, hi, rfl⟩ := List.mem_map.mp hx
      exact hall i (List.mem_range.mp hi)
  refine ⟨hcand, ?_⟩
  intro s hs
  unfold generate_mom_chunked
  rw [hcand, hs]

theorem all_extractions_failed_still_synthesizes_witness :
    chunked_candidates oracleExtFail tinyText = ⟨[], [], [], []⟩ ∧
    (generate_mom_chunked oracleExtFail tinyText 0).1 =
      some ⟨"mom", ⟨0, 1, some 1, "chunked"⟩⟩ := by
  have h := all_extractions_failed_still_synthesizes oracleExtFail tinyText 0
    (fun i _ => rfl)
  exact ⟨h.1, (h.2 "mom" rfl).trans (by decide)⟩

end ZoomMomBot
